import Mathlib

/-!
Verification of the elog core of portage (`lib/portage/elog/messages.py`):
the per-phase log-file parsing/grouping algorithm (`collect_ebuild_messages`)
and the key-scoped in-memory message buffer (`_elog_base`, `collect_messages`,
`_reset_buffer`).

Python dicts preserve insertion order, so every dict in the source is embedded
as an association list (`List (key × value)`), with insertion-order-faithful
operations `dlookup` (membership / indexing), `dinsert` (`d[k] = v`: update in
place if present, append at the end otherwise) and `derase` (`pop`/`del`:
remove the first matching pair).  Filesystem state is a list of file names;
`unlink` is fallible (`Except`) and `tryUnlink` swallows the failure, as the
source's `try: os.unlink(...) except OSError: pass` does.
-/

namespace Portage

/-- Python `k in d` / `d[k]`: first value bound to `k` in an association list. -/
def dlookup {α β : Type} [DecidableEq α] : List (α × β) → α → Option β
  | [], _ => none
  | p :: rest, k => if p.1 = k then some p.2 else dlookup rest k

/-- Python `d[k] = v`: replace the first binding of `k` in place, or append a
new binding at the end (dicts preserve insertion order). -/
def dinsert {α β : Type} [DecidableEq α] : List (α × β) → α → β → List (α × β)
  | [], k, v => [(k, v)]
  | p :: rest, k, v => if p.1 = k then (k, v) :: rest else p :: dinsert rest k v

/-- Python `d.pop(k)` / `del d[k]` (state part): drop the first binding of `k`. -/
def derase {α β : Type} [DecidableEq α] : List (α × β) → α → List (α × β)
  | [], _ => []
  | p :: rest, k => if p.1 = k then rest else p :: derase rest k

/-- Keys of an association list, in insertion order. -/
def keys {α β : Type} (d : List (α × β)) : List α := d.map Prod.fst

/-- Python `s.split(sep)` for a single-character separator: split on every
occurrence, keeping empty segments (so `split` of `""` is `[[]]`). -/
def splitCh (c : Char) : List Char → List (List Char)
  | [] => [[]]
  | a :: as =>
    if a = c then [] :: splitCh c as
    else
      match splitCh c as with
      | [] => [[a]]
      | seg :: segs => (a :: seg) :: segs

/-- Python `s.split(c, 1)` when it succeeds in producing two parts: the text
before the first occurrence of `c` and everything after it; `none` when `c`
does not occur (the source's unpacking then raises `ValueError`). -/
def split1 (c : Char) : List Char → Option (List Char × List Char)
  | [] => none
  | a :: as =>
    if a = c then some ([], as)
    else
      match split1 c as with
      | none => none
      | some q => some (a :: q.1, q.2)

/-- The source's `f.read().split("\n")` (a literal newline split, not generic
line iteration, per bug #390833 noted in the source). -/
def linesOf (s : String) : List String :=
  (splitCh (Char.ofNat 10) s.data).map String.mk

/-- The frozenset `_log_levels` of recognized severities. -/
def _log_levels : List String := ["ERROR", "INFO", "LOG", "QA", "WARN"]

/-- The diagnostic written for a malformed log line:
`"!!! malformed entry in log file: '%s': %s\n" % (filename, l)`. -/
def malformedDiag (filename l : String) : String :=
  "!!! malformed entry in log file: \x27" ++ filename ++ "\x27: " ++ l ++ "\n"

/-- The diagnostic written for a log file whose name is not a valid phase:
`"!!! can't process invalid log file: %s\n" % filename`. -/
def invalidDiag (filename : String) : String :=
  "!!! can\x27t process invalid log file: " ++ filename ++ "\n"

/-- One line of a phase log file: `msgtype, msg = l.split(" ", 1)` followed by
the `msgtype not in _log_levels` check; `none` is the `ValueError` path. -/
def parseLine (l : String) : Option (String × String) :=
  match split1 (Char.ofNat 32) l.data with
  | none => none
  | some q =>
    if String.mk q.1 ∈ _log_levels then some (String.mk q.1, String.mk q.2) else none

/-- Loop state of the `for l in f.read().split("\n")` loop of
`collect_ebuild_messages`: `lastmsgtype`, `msgcontent`, the groups flushed so
far into `logentries[msgfunction]`, and the diagnostics written so far. -/
structure LogState where
  lastmsgtype : Option String
  msgcontent : List String
  groups : List (String × List String)
  diags : List String

/-- One iteration of the line loop of `collect_ebuild_messages`: skip empty
lines, report and skip malformed lines, and otherwise either extend the
current same-severity run or flush it (when non-empty) and start a new one. -/
def ebuild_line_step (filename : String) (st : LogState) (l : String) : LogState :=
  if l = "" then st
  else
    match parseLine l with
    | none => { st with diags := st.diags ++ [malformedDiag filename l] }
    | some e =>
      let last := st.lastmsgtype.getD e.1
      if e.1 = last then
        { st with lastmsgtype := some e.1, msgcontent := st.msgcontent ++ [e.2] }
      else
        { lastmsgtype := some e.1
          msgcontent := [e.2]
          groups := if st.msgcontent.isEmpty then st.groups else st.groups ++ [(last, st.msgcontent)]
          diags := st.diags }

/-- The flush after the line loop: `if msgcontent: logentries[...].append((lastmsgtype, msgcontent))`.
`lastmsgtype` is never `none` when `msgcontent` is non-empty, so the `getD`
default never surfaces. -/
def finalizeGroups (st : LogState) : List (String × List String) :=
  if st.msgcontent.isEmpty then st.groups else st.groups ++ [(st.lastmsgtype.getD "", st.msgcontent)]

/-- Parsing of one phase log file: the groups appended to
`logentries[msgfunction]` and the malformed-line diagnostics, in order. -/
def parseFile (filename content : String) : List (String × List String) × List String :=
  let st := (linesOf content).foldl (ebuild_line_step filename) ⟨none, [], [], []⟩
  (finalizeGroups st, st.diags)

/-- The (severity, message) pairs of the well-formed, non-empty lines of a log
file, in appearance order. -/
def validEntries (content : String) : List (String × String) :=
  (linesOf content).filterMap parseLine

/-- Modelled from the spec: the grouping the spec describes, written
independently of the source loop.  `runsFrom t acc es` is the group sequence
obtained when a run of severity `t` with messages `acc` is open and the
entries `es` remain: an entry of the same severity extends the open run, any
other severity closes it and opens a new one. -/
def runsFrom (t : String) (acc : List String) : List (String × String) → List (String × List String)
  | [] => [(t, acc)]
  | e :: rest => if e.1 = t then runsFrom t (acc ++ [e.2]) rest else (t, acc) :: runsFrom e.1 [e.2] rest

/-- Modelled from the spec: maximal runs of consecutive same-severity entries,
in appearance order. -/
def maximalRuns : List (String × String) → List (String × List String)
  | [] => []
  | e :: rest => runsFrom e.1 [e.2] rest

/-- Flattening of a group sequence back into (severity, message) pairs. -/
def flattenGroups (gs : List (String × List String)) : List (String × String) :=
  (gs.map (fun g => g.2.map (fun m => (g.1, m)))).flatten

/-- Python `os.path.join(path, f)` for the shapes that occur here: an absolute
second component wins, an empty first component disappears, and otherwise a
single separator is placed between the two. -/
def path_join (p f : String) : String :=
  if f.data.head? = some (Char.ofNat 47) then f
  else if p.data = [] then f
  else if p.data.getLast? = some (Char.ofNat 47) then String.mk (p.data ++ f.data)
  else String.mk (p.data ++ Char.ofNat 47 :: f.data)

/-- Python `os.unlink`: removing a missing file raises `OSError`. -/
def unlink (fs : List String) (n : String) : Except String (List String) :=
  if n ∈ fs then Except.ok (fs.erase n) else Except.error "ENOENT"

/-- The source's `try: os.unlink(...) except OSError: pass`: the failure is
swallowed and the filesystem is left as it was. -/
def tryUnlink (fs : List String) (n : String) : List String :=
  match unlink fs n with
  | Except.ok fs2 => fs2
  | Except.error _ => fs

/-- One iteration of the `for msgfunction in mylogfiles` loop: an invalid
phase name is reported and skipped, a valid one has its key created (empty)
and the parsed groups and diagnostics appended. -/
def ebuild_file_step (phases : List String) (path : String) (content : String → String)
    (acc : List (String × List (String × List String)) × List String) (msgfunction : String) :
    List (String × List (String × List String)) × List String :=
  let filename := path_join path msgfunction
  if msgfunction ∉ phases then
    (acc.1, acc.2 ++ [invalidDiag filename])
  else
    let prev := (dlookup acc.1 msgfunction).getD []
    let pr := parseFile filename (content msgfunction)
    (dinsert acc.1 msgfunction (prev ++ pr.1), acc.2 ++ pr.2)

/-- Embedding of `collect_ebuild_messages(path)`.  `mylogfiles` is the directory listing
(`none` models the `OSError` branch of `os.listdir`), `content` the text of
each listed file, `phases` the externally supplied `EBUILD_PHASES` set, and
`fs` the file names existing on disk when the cleanup sweep runs.  Returns
`(logentries, diagnostics, remaining filesystem)`. -/
def collect_ebuild_messages (phases : List String) (path : String)
    (mylogfiles : Option (List String)) (content : String → String) (fs : List String) :
    List (String × List (String × List String)) × List String × List String :=
  match mylogfiles with
  | none => ([], [], fs)
  | some files =>
    if files.isEmpty then ([], [], fs)
    else
      let rev := files.reverse
      let r := rev.foldl (ebuild_file_step phases path content) ([], [])
      (r.1, r.2, rev.foldl (fun a f => tryUnlink a (path_join path f)) fs)

/-- One buffered (severity, message) entry. -/
abbrev Entry := String × String

/-- Python `_msgbuffer[key]`: phase → ordered entries. -/
abbrev PhaseMap := List (String × List Entry)

/-- The module-level `_msgbuffer`: key → phase → ordered entries.  The key is
`Option String` because the default `key=None` is itself a usable dict key. -/
abbrev MsgBuffer := List (Option String × PhaseMap)

/-- Embedding of `_reset_buffer()`: the buffer is reset to empty. -/
def _reset_buffer : MsgBuffer := []

/-- The buffer mutation of `_elog_base(level, msg, phase, key, ...)`: create
`_msgbuffer[key]` and `_msgbuffer[key][phase]` if absent, then append
`(level, msg)`.  The display/formatting side effects are out of scope. -/
def _elog_base (level msg phase : String) (key : Option String) (buf : MsgBuffer) : MsgBuffer :=
  let km := (dlookup buf key).getD []
  let pe := (dlookup km phase).getD []
  dinsert buf key (dinsert km phase (pe ++ [(level, msg)]))

/-- One iteration of the `for phase in phasefilter` loop of
`collect_messages`: `rValue[key][phase] = _msgbuffer[key].pop(phase)`, with a
`KeyError` on a missing phase silently ignored. -/
def popStep (acc : PhaseMap × PhaseMap) (phase : String) : PhaseMap × PhaseMap :=
  match dlookup acc.2 phase with
  | some l => (dinsert acc.1 phase l, derase acc.2 phase)
  | none => acc

/-- The whole `for phase in phasefilter` loop. -/
def popPhases (pf : List String) (acc : PhaseMap × PhaseMap) : PhaseMap × PhaseMap :=
  pf.foldl popStep acc

/-- Embedding of `collect_messages(key, phasefilter)`: returns `(rValue, new buffer)`.
`key = none` is the global flush (returning the whole buffer and resetting
it); a present key is popped whole, or phase by phase through `phasefilter`,
with the key deleted when no phase remains under it. -/
def collect_messages (key : Option String) (phasefilter : Option (List String))
    (buf : MsgBuffer) : MsgBuffer × MsgBuffer :=
  match key with
  | none => (buf, _reset_buffer)
  | some k =>
    match dlookup buf (some k) with
    | none => ([], buf)
    | some km =>
      match phasefilter with
      | none => ([(some k, km)], derase buf (some k))
      | some pf =>
        let r := popPhases pf ([], km)
        ([(some k, r.1)], if r.2.isEmpty then derase buf (some k) else dinsert buf (some k) r.2)

section AssocLemmas

@[simp] theorem keys_nil {α β : Type} : keys ([] : List (α × β)) = [] := rfl

@[simp] theorem keys_cons {α β : Type} (p : α × β) (d : List (α × β)) :
    keys (p :: d) = p.1 :: keys d := rfl

theorem mem_keys {α β : Type} {d : List (α × β)} {a : α} :
    a ∈ keys d ↔ ∃ y ∈ d, y.1 = a := by
  constructor
  · intro h
    exact List.mem_map.mp h
  · intro h
    exact List.mem_map.mpr h

variable {α β : Type} [DecidableEq α]

theorem dlookup_eq_none_of_not_mem (d : List (α × β)) (k : α) (h : k ∉ keys d) :
    dlookup d k = none := by
  induction d with
  | nil => rfl
  | cons p rest ih =>
    simp only [keys_cons, List.mem_cons, not_or] at h
    have h1 : ¬ p.1 = k := fun hp => h.1 hp.symm
    simp [dlookup, h1, ih h.2]

theorem dlookup_mem {d : List (α × β)} {k : α} {v : β} (h : dlookup d k = some v) :
    (k, v) ∈ d := by
  induction d with
  | nil => simp [dlookup] at h
  | cons p rest ih =>
    by_cases hp : p.1 = k
    · simp only [dlookup, if_pos hp, Option.some.injEq] at h
      subst hp h
      exact List.mem_cons_self _ _
    · simp only [dlookup, if_neg hp] at h
      exact List.mem_cons_of_mem _ (ih h)

theorem mem_keys_of_dlookup {d : List (α × β)} {k : α} {v : β} (h : dlookup d k = some v) :
    k ∈ keys d :=
  mem_keys.mpr ⟨(k, v), dlookup_mem h, rfl⟩

theorem dinsert_of_not_mem {d : List (α × β)} {k : α} (v : β) (h : k ∉ keys d) :
    dinsert d k v = d ++ [(k, v)] := by
  induction d with
  | nil => rfl
  | cons p rest ih =>
    simp only [keys_cons, List.mem_cons, not_or] at h
    have h1 : ¬ p.1 = k := fun hp => h.1 hp.symm
    simp [dinsert, h1, ih h.2]

theorem dinsert_dlookup_self {d : List (α × β)} {k : α} {v : β} (h : dlookup d k = some v) :
    dinsert d k v = d := by
  induction d with
  | nil => simp [dlookup] at h
  | cons p rest ih =>
    by_cases hp : p.1 = k
    · simp only [dlookup, if_pos hp, Option.some.injEq] at h
      simp only [dinsert, if_pos hp]
      obtain ⟨p1, p2⟩ := p
      simp only at hp h
      simp [hp, h]
    · simp only [dlookup, if_neg hp] at h
      simp [dinsert, hp, ih h]

theorem mem_dinsert {d : List (α × β)} {k : α} {v : β} {y : α × β}
    (h : y ∈ dinsert d k v) : y = (k, v) ∨ y ∈ d := by
  induction d with
  | nil => simpa [dinsert] using h
  | cons p rest ih =>
    by_cases hp : p.1 = k
    · simp only [dinsert, if_pos hp, List.mem_cons] at h
      rcases h with h | h
      · exact Or.inl h
      · exact Or.inr (List.mem_cons_of_mem _ h)
    · simp only [dinsert, if_neg hp, List.mem_cons] at h
      rcases h with h | h
      · exact Or.inr (by simp [h])
      · rcases ih h with h2 | h2
        · exact Or.inl h2
        · exact Or.inr (List.mem_cons_of_mem _ h2)

theorem dinsert_ne_nil (d : List (α × β)) (k : α) (v : β) : dinsert d k v ≠ [] := by
  cases d with
  | nil => simp [dinsert]
  | cons p rest =>
    by_cases hp : p.1 = k <;> simp [dinsert, hp]

theorem mem_derase {d : List (α × β)} {k : α} {y : α × β} (h : y ∈ derase d k) : y ∈ d := by
  induction d with
  | nil => simp [derase] at h
  | cons p rest ih =>
    by_cases hp : p.1 = k
    · simp only [derase, if_pos hp] at h
      exact List.mem_cons_of_mem _ h
    · simp only [derase, if_neg hp, List.mem_cons] at h
      rcases h with h | h
      · simp [h]
      · exact List.mem_cons_of_mem _ (ih h)

theorem keys_dinsert_subset (d : List (α × β)) (k : α) (v : β) :
    keys (dinsert d k v) ⊆ k :: keys d := by
  intro a ha
  rcases mem_keys.mp ha with ⟨y, hy, hya⟩
  rcases mem_dinsert hy with h | h
  · subst h
    simp only at hya
    simp [← hya]
  · exact List.mem_cons_of_mem _ (mem_keys.mpr ⟨y, h, hya⟩)

theorem dlookup_derase_of_ne {d : List (α × β)} {k p : α} (h : p ≠ k) :
    dlookup (derase d k) p = dlookup d p := by
  induction d with
  | nil => rfl
  | cons q rest ih =>
    by_cases hq : q.1 = k
    · have hqp : ¬ q.1 = p := fun he => h (he.symm.trans hq)
      simp only [derase, if_pos hq, dlookup, if_neg hqp]
    · by_cases hqp : q.1 = p
      · simp only [derase, if_neg hq, dlookup, if_pos hqp]
      · simp only [derase, if_neg hq, dlookup, if_neg hqp]
        exact ih

theorem derase_eq_filter {d : List (α × β)} (k : α) (h : (keys d).Nodup) :
    derase d k = d.filter (fun q => ¬ q.1 = k) := by
  induction d with
  | nil => rfl
  | cons p rest ih =>
    simp only [keys_cons, List.nodup_cons] at h
    by_cases hp : p.1 = k
    · have hrest : rest.filter (fun q => !decide (q.1 = k)) = rest := by
        apply List.filter_eq_self.mpr
        intro q hq
        have hqk : ¬ q.1 = k := by
          intro he
          apply h.1
          rw [hp, ← he]
          exact mem_keys.mpr ⟨q, hq, rfl⟩
        simp [hqk]
      simp [derase, hp, List.filter_cons, decide_not, hrest]
    · simp [derase, hp, List.filter_cons, ih h.2]

theorem keys_derase_nodup {d : List (α × β)} (k : α) (h : (keys d).Nodup) :
    (keys (derase d k)).Nodup := by
  induction d with
  | nil => simp [derase]
  | cons p rest ih =>
    simp only [keys_cons, List.nodup_cons] at h
    by_cases hp : p.1 = k
    · simpa [derase, hp] using h.2
    · simp only [derase, if_neg hp, keys_cons, List.nodup_cons]
      constructor
      · intro hmem
        rcases mem_keys.mp hmem with ⟨y, hy, hya⟩
        exact h.1 (mem_keys.mpr ⟨y, mem_derase hy, hya⟩)
      · exact ih h.2

end AssocLemmas

section ParseLemmas

@[simp] theorem parseLine_empty : parseLine "" = none := rfl

theorem step_empty (fn : String) (st : LogState) : ebuild_line_step fn st "" = st := by
  simp [ebuild_line_step]

theorem step_bad (fn : String) (st : LogState) (l : String) (hl : ¬ l = "")
    (hp : parseLine l = none) :
    ebuild_line_step fn st l = { st with diags := st.diags ++ [malformedDiag fn l] } := by
  simp [ebuild_line_step, hl, hp]

theorem step_good_extend (fn t : String) (acc : List String) (gs : List (String × List String))
    (ds : List String) (l : String) (e : String × String) (hl : ¬ l = "")
    (hp : parseLine l = some e) (he : e.1 = t) :
    ebuild_line_step fn ⟨some t, acc, gs, ds⟩ l = ⟨some t, acc ++ [e.2], gs, ds⟩ := by
  simp [ebuild_line_step, hl, hp, Option.getD, he]

theorem step_good_flush (fn t : String) (a : String) (as : List String)
    (gs : List (String × List String)) (ds : List String) (l : String) (e : String × String)
    (hl : ¬ l = "") (hp : parseLine l = some e) (he : ¬ e.1 = t) :
    ebuild_line_step fn ⟨some t, a :: as, gs, ds⟩ l =
      ⟨some e.1, [e.2], gs ++ [(t, a :: as)], ds⟩ := by
  simp [ebuild_line_step, hl, hp, Option.getD, he]

theorem step_good_start (fn : String) (gs : List (String × List String)) (ds : List String)
    (l : String) (e : String × String) (hl : ¬ l = "") (hp : parseLine l = some e) :
    ebuild_line_step fn ⟨none, [], gs, ds⟩ l = ⟨some e.1, [e.2], gs, ds⟩ := by
  simp [ebuild_line_step, hl, hp, Option.getD]

theorem step_diags_mem (fn : String) (st : LogState) (l : String) {x : String}
    (h : x ∈ st.diags) : x ∈ (ebuild_line_step fn st l).diags := by
  unfold ebuild_line_step
  split
  · exact h
  · split
    · exact List.mem_append_left _ h
    · dsimp only
      split
      · exact h
      · exact h

theorem fold_diags_mem (fn : String) :
    ∀ (lines : List String) (st : LogState) {x : String},
    x ∈ st.diags → x ∈ (lines.foldl (ebuild_line_step fn) st).diags := by
  intro lines
  induction lines with
  | nil => intro st x h; exact h
  | cons l ls ih => intro st x h; exact ih _ (step_diags_mem fn st l h)

theorem fold_diag_of_malformed (fn : String) :
    ∀ (lines : List String) (st : LogState) (l : String),
    l ∈ lines → l ≠ "" → parseLine l = none →
    malformedDiag fn l ∈ (lines.foldl (ebuild_line_step fn) st).diags := by
  intro lines
  induction lines with
  | nil => intro st l h; simp at h
  | cons a ls ih =>
    intro st l hmem hne hpl
    rcases List.mem_cons.mp hmem with h | h
    · subst h
      rw [List.foldl_cons, step_bad fn st l hne hpl]
      apply fold_diags_mem
      simp
    · exact ih _ l h hne hpl

theorem foldl_runs (fn : String) :
    ∀ (lines : List String) (t : String) (acc : List String)
    (gs : List (String × List String)) (ds : List String), acc ≠ [] →
    finalizeGroups (lines.foldl (ebuild_line_step fn) ⟨some t, acc, gs, ds⟩) =
      gs ++ runsFrom t acc (lines.filterMap parseLine) := by
  intro lines
  induction lines with
  | nil =>
    intro t acc gs ds hacc
    obtain ⟨a, as, rfl⟩ := List.exists_cons_of_ne_nil hacc
    simp [finalizeGroups, runsFrom, Option.getD]
  | cons l ls ih =>
    intro t acc gs ds hacc
    rw [List.foldl_cons, List.filterMap_cons]
    by_cases hl : l = ""
    · subst hl
      rw [step_empty, parseLine_empty]
      exact ih t acc gs ds hacc
    · cases hp : parseLine l with
      | none =>
        rw [step_bad fn _ l hl hp]
        exact ih t acc gs _ hacc
      | some e =>
        obtain ⟨e1, e2⟩ := e
        by_cases he : e1 = t
        · subst he
          rw [step_good_extend fn e1 acc gs ds l (e1, e2) hl hp rfl]
          rw [ih e1 (acc ++ [e2]) gs ds (by simp)]
          simp [runsFrom]
        · obtain ⟨a, as, rfl⟩ := List.exists_cons_of_ne_nil hacc
          rw [step_good_flush fn t a as gs ds l (e1, e2) hl hp he]
          rw [ih e1 [e2] (gs ++ [(t, a :: as)]) ds (by simp)]
          simp [runsFrom, he]

theorem foldl_start (fn : String) :
    ∀ (lines : List String) (gs : List (String × List String)) (ds : List String),
    finalizeGroups (lines.foldl (ebuild_line_step fn) ⟨none, [], gs, ds⟩) =
      gs ++ maximalRuns (lines.filterMap parseLine) := by
  intro lines
  induction lines with
  | nil => intro gs ds; simp [finalizeGroups, maximalRuns]
  | cons l ls ih =>
    intro gs ds
    rw [List.foldl_cons, List.filterMap_cons]
    by_cases hl : l = ""
    · subst hl
      rw [step_empty, parseLine_empty]
      exact ih gs ds
    · cases hp : parseLine l with
      | none =>
        rw [step_bad fn _ l hl hp]
        exact ih gs _
      | some e =>
        rw [step_good_start fn gs ds l e hl hp]
        rw [foldl_runs fn ls e.1 [e.2] gs ds (by simp)]
        simp [maximalRuns]

/-- The groups `collect_ebuild_messages` builds for one file are exactly the
maximal same-severity runs of its valid lines. -/
theorem parseFile_groups (fn content : String) :
    (parseFile fn content).1 = maximalRuns (validEntries content) := by
  unfold parseFile validEntries
  exact foldl_start fn (linesOf content) [] []

theorem runsFrom_cons_eq (t : String) (acc : List String) (e : String × String)
    (rest : List (String × String)) (he : e.1 = t) :
    runsFrom t acc (e :: rest) = runsFrom t (acc ++ [e.2]) rest := by
  simp [runsFrom, he]

theorem runsFrom_cons_ne (t : String) (acc : List String) (e : String × String)
    (rest : List (String × String)) (he : ¬ e.1 = t) :
    runsFrom t acc (e :: rest) = (t, acc) :: runsFrom e.1 [e.2] rest := by
  simp [runsFrom, he]

@[simp] theorem flattenGroups_nil : flattenGroups [] = [] := rfl

@[simp] theorem flattenGroups_cons (g : String × List String) (gs : List (String × List String)) :
    flattenGroups (g :: gs) = g.2.map (fun m => (g.1, m)) ++ flattenGroups gs := by
  simp [flattenGroups]

theorem flatten_runsFrom :
    ∀ (es : List (String × String)) (t : String) (acc : List String),
    flattenGroups (runsFrom t acc es) = acc.map (fun m => (t, m)) ++ es := by
  intro es
  induction es with
  | nil => intro t acc; simp [runsFrom]
  | cons e rest ih =>
    intro t acc
    obtain ⟨e1, e2⟩ := e
    by_cases he : e1 = t
    · subst he
      rw [runsFrom_cons_eq e1 acc (e1, e2) rest rfl, ih]
      simp
    · rw [runsFrom_cons_ne t acc (e1, e2) rest he, flattenGroups_cons, ih]
      simp

theorem flatten_maximalRuns (es : List (String × String)) :
    flattenGroups (maximalRuns es) = es := by
  cases es with
  | nil => rfl
  | cons e rest =>
    simp only [maximalRuns]
    rw [flatten_runsFrom]
    simp

theorem runsFrom_groups_ne_nil :
    ∀ (es : List (String × String)) (t : String) (acc : List String), acc ≠ [] →
    ∀ g ∈ runsFrom t acc es, g.2 ≠ [] := by
  intro es
  induction es with
  | nil =>
    intro t acc hacc g hg
    simp only [runsFrom, List.mem_singleton] at hg
    subst hg
    exact hacc
  | cons e rest ih =>
    intro t acc hacc g hg
    by_cases he : e.1 = t
    · simp only [runsFrom, if_pos he] at hg
      exact ih t (acc ++ [e.2]) (by simp) g hg
    · simp only [runsFrom, if_neg he, List.mem_cons] at hg
      rcases hg with hg | hg
      · subst hg
        exact hacc
      · exact ih e.1 [e.2] (by simp) g hg

theorem maximalRuns_groups_ne_nil (es : List (String × String)) :
    ∀ g ∈ maximalRuns es, g.2 ≠ [] := by
  cases es with
  | nil => intro g hg; simp [maximalRuns] at hg
  | cons e rest =>
    intro g hg
    exact runsFrom_groups_ne_nil rest e.1 [e.2] (by simp) g hg

theorem runsFrom_head :
    ∀ (es : List (String × String)) (t : String) (acc : List String),
    ∃ ms gs2, runsFrom t acc es = (t, ms) :: gs2 := by
  intro es
  induction es with
  | nil => intro t acc; exact ⟨acc, [], rfl⟩
  | cons e rest ih =>
    intro t acc
    by_cases he : e.1 = t
    · simpa only [runsFrom, if_pos he] using ih t (acc ++ [e.2])
    · exact ⟨acc, runsFrom e.1 [e.2] rest, by simp [runsFrom, if_neg he]⟩

theorem runsFrom_chain :
    ∀ (es : List (String × String)) (t : String) (acc : List String),
    List.Chain' (fun a b : String × List String => a.1 ≠ b.1) (runsFrom t acc es) := by
  intro es
  induction es with
  | nil => intro t acc; simp [runsFrom]
  | cons e rest ih =>
    intro t acc
    by_cases he : e.1 = t
    · simpa only [runsFrom, if_pos he] using ih t (acc ++ [e.2])
    · simp only [runsFrom, if_neg he]
      obtain ⟨ms, gs2, heq⟩ := runsFrom_head rest e.1 [e.2]
      rw [heq]
      refine List.chain'_cons.mpr ⟨?_, ?_⟩
      · exact fun hc => he hc.symm
      · rw [← heq]
        exact ih e.1 [e.2]

theorem maximalRuns_chain (es : List (String × String)) :
    List.Chain' (fun a b : String × List String => a.1 ≠ b.1) (maximalRuns es) := by
  cases es with
  | nil => simp [maximalRuns]
  | cons e rest => exact runsFrom_chain rest e.1 [e.2]

end ParseLemmas

section CollectLemmas

variable (phases : List String) (path : String) (content : String → String)

theorem file_step_diags_mem (acc : List (String × List (String × List String)) × List String)
    (f : String) {x : String} (h : x ∈ acc.2) :
    x ∈ (ebuild_file_step phases path content acc f).2 := by
  unfold ebuild_file_step
  split
  · exact List.mem_append_left _ h
  · exact List.mem_append_left _ h

theorem file_fold_diags_mem :
    ∀ (files : List String) (acc : List (String × List (String × List String)) × List String)
    {x : String}, x ∈ acc.2 →
    x ∈ (files.foldl (ebuild_file_step phases path content) acc).2 := by
  intro files
  induction files with
  | nil => intro acc x h; exact h
  | cons f fs ih =>
    intro acc x h
    exact ih _ (file_step_diags_mem phases path content acc f h)

theorem file_fold_invalid_diag :
    ∀ (files : List String) (acc : List (String × List (String × List String)) × List String)
    (f : String), f ∈ files → f ∉ phases →
    invalidDiag (path_join path f) ∈ (files.foldl (ebuild_file_step phases path content) acc).2 := by
  intro files
  induction files with
  | nil => intro acc f h; simp at h
  | cons a fs ih =>
    intro acc f hmem hf
    rcases List.mem_cons.mp hmem with h | h
    · subst h
      rw [List.foldl_cons]
      apply file_fold_diags_mem
      unfold ebuild_file_step
      rw [if_pos hf]
      simp
    · exact ih _ f h hf

theorem file_step_keys (acc : List (String × List (String × List String)) × List String)
    (f : String) {k : String} (h : k ∈ keys (ebuild_file_step phases path content acc f).1) :
    k ∈ keys acc.1 ∨ k ∈ phases := by
  unfold ebuild_file_step at h
  by_cases hf : f ∉ phases
  · rw [if_pos hf] at h
    exact Or.inl h
  · rw [if_neg hf] at h
    rcases List.mem_cons.mp (keys_dinsert_subset acc.1 f _ h) with h2 | h2
    · subst h2
      exact Or.inr (not_not.mp hf)
    · exact Or.inl h2

theorem file_fold_keys_subset :
    ∀ (files : List String) (acc : List (String × List (String × List String)) × List String)
    {k : String}, k ∈ keys (files.foldl (ebuild_file_step phases path content) acc).1 →
    k ∈ keys acc.1 ∨ k ∈ phases := by
  intro files
  induction files with
  | nil => intro acc k h; exact Or.inl h
  | cons f fs ih =>
    intro acc k h
    rcases ih _ h with h2 | h2
    · exact file_step_keys phases path content acc f h2
    · exact Or.inr h2

theorem file_fold_keys_order :
    ∀ (files : List String) (acc : List (String × List (String × List String)) × List String),
    files.Nodup → (∀ f ∈ files, f ∉ keys acc.1) →
    keys (files.foldl (ebuild_file_step phases path content) acc).1 =
      keys acc.1 ++ files.filter (fun f => f ∈ phases) := by
  intro files
  induction files with
  | nil => intro acc _ _; simp
  | cons f fs ih =>
    intro acc hnd hdisj
    simp only [List.nodup_cons] at hnd
    rw [List.foldl_cons, List.filter_cons]
    by_cases hf : f ∈ phases
    · have hnotin : f ∉ keys acc.1 := hdisj f (List.mem_cons_self f fs)
      have hstep : (ebuild_file_step phases path content acc f).1 =
          acc.1 ++ [(f, ((dlookup acc.1 f).getD [] ++
            (parseFile (path_join path f) (content f)).1))] := by
        unfold ebuild_file_step
        rw [if_neg (not_not.mpr hf)]
        exact dinsert_of_not_mem _ hnotin
      have hkeys : keys (ebuild_file_step phases path content acc f).1 = keys acc.1 ++ [f] := by
        rw [hstep]
        simp [keys]
      rw [ih _ hnd.2 ?_]
      · rw [hkeys]
        simp [hf]
      · intro g hg
        rw [hkeys]
        intro hmem
        rcases List.mem_append.mp hmem with h2 | h2
        · exact hdisj g (List.mem_cons_of_mem _ hg) h2
        · have hgf : g = f := by simpa using h2
          exact hnd.1 (hgf ▸ hg)
    · have hstep : (ebuild_file_step phases path content acc f).1 = acc.1 := by
        unfold ebuild_file_step
        rw [if_pos hf]
      rw [ih _ hnd.2 ?_]
      · rw [hstep]
        simp [hf]
      · intro g hg
        rw [hstep]
        exact hdisj g (List.mem_cons_of_mem _ hg)

/-- The per-file diagnostics, in processing order: a valid phase file
contributes its malformed-line diagnostics, an invalid one its rejection
diagnostic. -/
def fileDiags (f : String) : List String :=
  if f ∈ phases then (parseFile (path_join path f) (content f)).2
  else [invalidDiag (path_join path f)]

theorem fileDiags_pos (f : String) (hf : f ∈ phases) :
    fileDiags phases path content f = (parseFile (path_join path f) (content f)).2 := by
  unfold fileDiags
  rw [if_pos hf]

theorem fileDiags_neg (f : String) (hf : f ∉ phases) :
    fileDiags phases path content f = [invalidDiag (path_join path f)] := by
  unfold fileDiags
  rw [if_neg hf]

theorem file_step_pos (acc : List (String × List (String × List String)) × List String)
    (f : String) (hf : f ∈ phases) :
    ebuild_file_step phases path content acc f =
      (dinsert acc.1 f ((dlookup acc.1 f).getD [] ++
          (parseFile (path_join path f) (content f)).1),
        acc.2 ++ (parseFile (path_join path f) (content f)).2) := by
  simp [ebuild_file_step, hf]

theorem file_step_neg (acc : List (String × List (String × List String)) × List String)
    (f : String) (hf : f ∉ phases) :
    ebuild_file_step phases path content acc f =
      (acc.1, acc.2 ++ [invalidDiag (path_join path f)]) := by
  simp [ebuild_file_step, hf]

theorem file_fold_diags_eq :
    ∀ (files : List String) (acc : List (String × List (String × List String)) × List String),
    (files.foldl (ebuild_file_step phases path content) acc).2 =
      acc.2 ++ (files.map (fileDiags phases path content)).flatten := by
  intro files
  induction files with
  | nil => intro acc; simp
  | cons f fs ih =>
    intro acc
    rw [List.foldl_cons, ih]
    by_cases hf : f ∈ phases
    · rw [file_step_pos phases path content acc f hf]
      simp [fileDiags_pos phases path content f hf]
    · rw [file_step_neg phases path content acc f hf]
      simp [fileDiags_neg phases path content f hf]

theorem tryUnlink_eq_erase (fs : List String) (n : String) : tryUnlink fs n = fs.erase n := by
  unfold tryUnlink unlink
  by_cases h : n ∈ fs
  · simp [h]
  · simp [h, List.erase_of_not_mem h]

theorem unlink_fold_eq (l : List String) (fs : List String) :
    l.foldl (fun a f => tryUnlink a (path_join path f)) fs =
      (l.map (path_join path)).foldl List.erase fs := by
  rw [List.foldl_map]
  simp [tryUnlink_eq_erase]

theorem mem_foldl_erase :
    ∀ (l : List String) (fs : List String) {x : String},
    x ∈ l.foldl List.erase fs → x ∈ fs := by
  intro l
  induction l with
  | nil => intro fs x h; exact h
  | cons p ps ih =>
    intro fs x h
    exact List.mem_of_mem_erase (ih _ h)

theorem foldl_erase_nodup :
    ∀ (l : List String) (fs : List String), fs.Nodup → (l.foldl List.erase fs).Nodup := by
  intro l
  induction l with
  | nil => intro fs h; exact h
  | cons p ps ih => intro fs h; exact ih _ (h.erase p)

theorem not_mem_foldl_erase :
    ∀ (l : List String) (fs : List String) {p : String}, fs.Nodup → p ∈ l →
    p ∉ l.foldl List.erase fs := by
  intro l
  induction l with
  | nil => intro fs p _ h; simp at h
  | cons q ps ih =>
    intro fs p hnd hmem
    rcases List.mem_cons.mp hmem with h | h
    · subst h
      intro hc
      have := mem_foldl_erase ps (fs.erase p) hc
      exact ((hnd.mem_erase_iff).mp this).1 rfl
    · exact ih _ (hnd.erase q) h

theorem mem_foldl_erase_of_ne :
    ∀ (l : List String) (fs : List String) {g : String}, g ∈ fs → (∀ p ∈ l, p ≠ g) →
    g ∈ l.foldl List.erase fs := by
  intro l
  induction l with
  | nil => intro fs g h _; exact h
  | cons q ps ih =>
    intro fs g hmem hne
    apply ih _ ?_ (fun p hp => hne p (List.mem_cons_of_mem _ hp))
    exact (List.mem_erase_of_ne (fun hgq => hne q (List.mem_cons_self q ps) hgq.symm)).mpr hmem

end CollectLemmas

section BufferLemmas

theorem dlookup_ne_none_of_mem {α β : Type} [DecidableEq α] {d : List (α × β)} {k : α}
    (h : k ∈ keys d) : dlookup d k ≠ none := by
  induction d with
  | nil => simp at h
  | cons p rest ih =>
    by_cases hp : p.1 = k
    · simp [dlookup, hp]
    · simp only [keys_cons, List.mem_cons] at h
      rcases h with h | h
      · exact absurd h.symm hp
      · simpa [dlookup, hp] using ih h

theorem not_mem_keys_of_dlookup_none {α β : Type} [DecidableEq α] {d : List (α × β)} {k : α}
    (h : dlookup d k = none) : k ∉ keys d :=
  fun hmem => dlookup_ne_none_of_mem hmem h

theorem popStep_none (acc : PhaseMap × PhaseMap) (p : String)
    (h : dlookup acc.2 p = none) : popStep acc p = acc := by
  unfold popStep
  rw [h]

theorem popStep_some (acc : PhaseMap × PhaseMap) (p : String) (l : List Entry)
    (h : dlookup acc.2 p = some l) :
    popStep acc p = (dinsert acc.1 p l, derase acc.2 p) := by
  unfold popStep
  rw [h]

theorem popPhases_all_missing :
    ∀ (pf : List String) (r d : PhaseMap), (∀ p ∈ pf, dlookup d p = none) →
    popPhases pf (r, d) = (r, d) := by
  intro pf
  induction pf with
  | nil => intro r d _; rfl
  | cons p ps ih =>
    intro r d h
    unfold popPhases
    rw [List.foldl_cons, popStep_none (r, d) p (h p (List.mem_cons_self p ps))]
    exact ih r d (fun q hq => h q (List.mem_cons_of_mem _ hq))

theorem popPhases_snd_mem :
    ∀ (pf : List String) (acc : PhaseMap × PhaseMap) {q : String × List Entry},
    q ∈ (popPhases pf acc).2 → q ∈ acc.2 := by
  intro pf
  induction pf with
  | nil => intro acc q h; exact h
  | cons p ps ih =>
    intro acc q h
    unfold popPhases at h
    rw [List.foldl_cons] at h
    have h2 := ih (popStep acc p) h
    unfold popStep at h2
    cases hd : dlookup acc.2 p with
    | none => rwa [hd] at h2
    | some l =>
      rw [hd] at h2
      exact mem_derase h2

theorem popPhases_spec :
    ∀ (pf : List String) (r d : PhaseMap), pf.Nodup → (keys d).Nodup →
    (∀ p ∈ pf, p ∉ keys r) →
    popPhases pf (r, d) =
      (r ++ pf.filterMap (fun p => (dlookup d p).map (fun l => (p, l))),
       d.filter (fun q => q.1 ∉ pf)) := by
  intro pf
  induction pf with
  | nil =>
    intro r d _ _ _
    simp [popPhases]
  | cons p ps ih =>
    intro r d hnd hkd hdisj
    simp only [List.nodup_cons] at hnd
    unfold popPhases
    rw [List.foldl_cons]
    cases hd : dlookup d p with
    | none =>
      rw [popStep_none (r, d) p hd]
      have hih := ih r d hnd.2 hkd (fun q hq => hdisj q (List.mem_cons_of_mem _ hq))
      unfold popPhases at hih
      rw [hih, Prod.mk.injEq]
      have hnk := not_mem_keys_of_dlookup_none hd
      refine ⟨?_, ?_⟩
      · simp [List.filterMap_cons, hd]
      · apply List.filter_congr
        intro q hq
        have hqp : ¬ q.1 = p := fun he => hnk (he ▸ mem_keys.mpr ⟨q, hq, rfl⟩)
        simp [List.mem_cons, hqp]
    | some l =>
      rw [popStep_some (r, d) p l hd]
      have hrp : p ∉ keys r := hdisj p (List.mem_cons_self p ps)
      have hins : dinsert r p l = r ++ [(p, l)] := dinsert_of_not_mem l hrp
      have hkd2 : (keys (derase d p)).Nodup := keys_derase_nodup p hkd
      have hdisj2 : ∀ q ∈ ps, q ∉ keys (r ++ [(p, l)]) := by
        intro q hq hmem
        rw [keys, List.map_append] at hmem
        rcases List.mem_append.mp hmem with h2 | h2
        · exact hdisj q (List.mem_cons_of_mem _ hq) h2
        · have hqp : q = p := by simpa using h2
          exact hnd.1 (hqp ▸ hq)
      have hih := ih (r ++ [(p, l)]) (derase d p) hnd.2 hkd2 hdisj2
      unfold popPhases at hih
      rw [hins, hih, Prod.mk.injEq]
      refine ⟨?_, ?_⟩
      · have hcongr : ps.filterMap (fun q => (dlookup (derase d p) q).map (fun l2 => (q, l2)))
            = ps.filterMap (fun q => (dlookup d q).map (fun l2 => (q, l2))) := by
          apply List.filterMap_congr
          intro q hq
          have hqp : q ≠ p := fun he => hnd.1 (he ▸ hq)
          rw [dlookup_derase_of_ne hqp]
        rw [hcongr, List.filterMap_cons, hd]
        simp
      · rw [derase_eq_filter p hkd, List.filter_filter]
        apply List.filter_congr
        intro q _
        simp [List.mem_cons, not_or, Bool.and_comm]

end BufferLemmas


section Invariant

/-- Buffer states reachable from the initially empty `_msgbuffer` through the
two mutating operations of the module. -/
inductive Reachable : MsgBuffer → Prop
  | empty : Reachable []
  | record (level msg phase : String) (key : Option String) {b : MsgBuffer} :
      Reachable b → Reachable (_elog_base level msg phase key b)
  | drain (key : Option String) (pf : Option (List String)) {b : MsgBuffer} :
      Reachable b → Reachable (collect_messages key pf b).2

/-- Every key present maps to a non-empty phase map, and every phase present
maps to a non-empty entry list. -/
def WFBuf (b : MsgBuffer) : Prop :=
  ∀ p ∈ b, p.2 ≠ [] ∧ ∀ q ∈ p.2, q.2 ≠ []

theorem wf_elog (level msg phase : String) (key : Option String) {b : MsgBuffer}
    (h : WFBuf b) : WFBuf (_elog_base level msg phase key b) := by
  intro p hp
  simp only [_elog_base] at hp
  rcases mem_dinsert hp with hpe | hpe
  · subst hpe
    refine ⟨dinsert_ne_nil _ _ _, ?_⟩
    intro q hq
    rcases mem_dinsert hq with hqe | hqe
    · subst hqe
      simp
    · cases hlk : dlookup b key with
      | none =>
        rw [hlk] at hqe
        simp at hqe
      | some km =>
        rw [hlk] at hqe
        simp only [Option.getD_some] at hqe
        exact (h _ (dlookup_mem hlk)).2 q hqe
  · exact h p hpe

theorem wf_drain (key : Option String) (pf : Option (List String)) {b : MsgBuffer}
    (h : WFBuf b) : WFBuf (collect_messages key pf b).2 := by
  unfold collect_messages
  cases key with
  | none =>
    intro p hp
    simp [_reset_buffer] at hp
  | some k =>
    dsimp only
    cases hlk : dlookup b (some k) with
    | none => exact h
    | some km =>
      cases pf with
      | none =>
        intro p hp
        exact h p (mem_derase hp)
      | some pflist =>
        dsimp only
        split
        next hemp =>
          intro p hp
          exact h p (mem_derase hp)
        next hemp =>
          intro p hp
          rcases mem_dinsert hp with hpe | hpe
          · subst hpe
            refine ⟨?_, ?_⟩
            · intro hnil
              rw [hnil] at hemp
              simp at hemp
            · intro q hq
              have hqm := popPhases_snd_mem pflist ([], km) hq
              exact (h _ (dlookup_mem hlk)).2 q hqm
          · exact h p hpe

/-- Invariant of all reachable buffer states. -/
theorem reachable_wf : ∀ {b : MsgBuffer}, Reachable b → WFBuf b := by
  intro b h
  induction h with
  | empty => intro p hp; simp at hp
  | record level msg phase key hb ih => exact wf_elog level msg phase key ih
  | drain key pf hb ih => exact wf_drain key pf ih

end Invariant

section Entries

/-- Multiset of all entries of one phase list. -/
def listEntries (l : List Entry) : Multiset Entry := (l : Multiset Entry)

/-- Total multiset of entries of an association list, each value measured by mu. -/
def sumVal {α β : Type} (μ : β → Multiset Entry) (d : List (α × β)) : Multiset Entry :=
  (d.map (fun q => μ q.2)).sum

/-- All entries stored in one phase map. -/
def phaseEntries (km : PhaseMap) : Multiset Entry := sumVal listEntries km

/-- All entries stored in the whole buffer, with multiplicity. -/
def bufEntries (b : MsgBuffer) : Multiset Entry := sumVal phaseEntries b

@[simp] theorem sumVal_nil {α β : Type} (μ : β → Multiset Entry) :
    sumVal μ ([] : List (α × β)) = 0 := rfl

@[simp] theorem sumVal_cons {α β : Type} (μ : β → Multiset Entry) (p : α × β)
    (d : List (α × β)) : sumVal μ (p :: d) = μ p.2 + sumVal μ d := by
  simp [sumVal]

theorem sumVal_derase {α β : Type} [DecidableEq α] (μ : β → Multiset Entry)
    {d : List (α × β)} {k : α} {v : β} (h : dlookup d k = some v) :
    μ v + sumVal μ (derase d k) = sumVal μ d := by
  induction d with
  | nil => simp [dlookup] at h
  | cons p rest ih =>
    by_cases hp : p.1 = k
    · simp only [dlookup, if_pos hp, Option.some.injEq] at h
      subst h
      simp [derase, hp]
    · simp only [dlookup, if_neg hp] at h
      simp only [derase, if_neg hp, sumVal_cons, ← ih h]
      abel

theorem sumVal_dinsert_le {α β : Type} [DecidableEq α] (μ : β → Multiset Entry)
    (d : List (α × β)) (k : α) (v : β) :
    sumVal μ (dinsert d k v) ≤ sumVal μ d + μ v := by
  induction d with
  | nil => simp [dinsert]
  | cons p rest ih =>
    by_cases hp : p.1 = k
    · simp only [dinsert, if_pos hp, sumVal_cons]
      calc μ v + sumVal μ rest ≤ μ v + (μ p.2 + sumVal μ rest) :=
            add_le_add_left le_add_self _
        _ = μ p.2 + sumVal μ rest + μ v := by abel
    · simp only [dinsert, if_neg hp, sumVal_cons]
      calc μ p.2 + sumVal μ (dinsert rest k v) ≤ μ p.2 + (sumVal μ rest + μ v) :=
            add_le_add_left ih _
        _ = μ p.2 + sumVal μ rest + μ v := by abel

theorem sumVal_dinsert_lookup {α β : Type} [DecidableEq α] (μ : β → Multiset Entry)
    {d : List (α × β)} {k : α} {w : β} (v : β) (h : dlookup d k = some w) :
    sumVal μ (dinsert d k v) + μ w = sumVal μ d + μ v := by
  induction d with
  | nil => simp [dlookup] at h
  | cons p rest ih =>
    by_cases hp : p.1 = k
    · simp only [dlookup, if_pos hp, Option.some.injEq] at h
      subst h
      simp only [dinsert, if_pos hp, sumVal_cons]
      abel
    · simp only [dlookup, if_neg hp] at h
      simp only [dinsert, if_neg hp, sumVal_cons]
      calc μ p.2 + sumVal μ (dinsert rest k v) + μ w
          = μ p.2 + (sumVal μ (dinsert rest k v) + μ w) := by abel
        _ = μ p.2 + (sumVal μ rest + μ v) := by rw [ih h]
        _ = μ p.2 + sumVal μ rest + μ v := by abel

theorem popStep_le (acc : PhaseMap × PhaseMap) (p : String) :
    phaseEntries (popStep acc p).1 + phaseEntries (popStep acc p).2 ≤
      phaseEntries acc.1 + phaseEntries acc.2 := by
  unfold popStep
  cases hd : dlookup acc.2 p with
  | none => exact le_refl _
  | some l =>
    dsimp only
    have h1 := sumVal_dinsert_le listEntries acc.1 p l
    have h2 := sumVal_derase listEntries hd
    unfold phaseEntries
    calc sumVal listEntries (dinsert acc.1 p l) + sumVal listEntries (derase acc.2 p)
        ≤ (sumVal listEntries acc.1 + listEntries l) + sumVal listEntries (derase acc.2 p) :=
          add_le_add_right h1 _
      _ = sumVal listEntries acc.1 + (listEntries l + sumVal listEntries (derase acc.2 p)) := by
          abel
      _ = sumVal listEntries acc.1 + sumVal listEntries acc.2 := by rw [h2]

theorem popPhases_le :
    ∀ (pf : List String) (acc : PhaseMap × PhaseMap),
    phaseEntries (popPhases pf acc).1 + phaseEntries (popPhases pf acc).2 ≤
      phaseEntries acc.1 + phaseEntries acc.2 := by
  intro pf
  induction pf with
  | nil => intro acc; exact le_refl _
  | cons p ps ih =>
    intro acc
    unfold popPhases
    rw [List.foldl_cons]
    exact le_trans (ih (popStep acc p)) (popStep_le acc p)

/-- Each drain call delivers entries and keeps entries that together are
bounded by what the buffer held: nothing is duplicated. -/
theorem collect_messages_le (key : Option String) (pf : Option (List String)) (b : MsgBuffer) :
    bufEntries (collect_messages key pf b).1 + bufEntries (collect_messages key pf b).2 ≤
      bufEntries b := by
  unfold collect_messages
  cases key with
  | none => simp [bufEntries, _reset_buffer]
  | some k =>
    dsimp only
    cases hlk : dlookup b (some k) with
    | none => simp [bufEntries]
    | some km =>
      cases pf with
      | none =>
        dsimp only
        unfold bufEntries
        have h2 := sumVal_derase phaseEntries hlk
        refine le_of_eq ?_
        rw [← h2]
        simp
      | some pflist =>
        dsimp only
        split
        next hemp =>
          have hr2 : (popPhases pflist ([], km)).2 = [] := by
            simpa using hemp
          have hle := popPhases_le pflist ([], km)
          rw [hr2] at hle
          have hle2 : phaseEntries (popPhases pflist ([], km)).1 ≤ phaseEntries km := by
            simpa [phaseEntries] using hle
          have h2 := sumVal_derase phaseEntries hlk
          unfold bufEntries
          calc sumVal phaseEntries [(some k, (popPhases pflist ([], km)).1)] +
                sumVal phaseEntries (derase b (some k))
              = phaseEntries (popPhases pflist ([], km)).1 +
                  sumVal phaseEntries (derase b (some k)) := by simp
            _ ≤ phaseEntries km + sumVal phaseEntries (derase b (some k)) :=
                add_le_add_right hle2 _
            _ = sumVal phaseEntries b := h2
        next hemp =>
          have hle := popPhases_le pflist ([], km)
          have hle2 : phaseEntries (popPhases pflist ([], km)).1 +
              phaseEntries (popPhases pflist ([], km)).2 ≤ phaseEntries km := by
            simpa [phaseEntries] using hle
          have h3 := sumVal_dinsert_lookup phaseEntries ((popPhases pflist ([], km)).2) hlk
          unfold bufEntries
          rw [← add_le_add_iff_right (phaseEntries km)]
          calc sumVal phaseEntries [(some k, (popPhases pflist ([], km)).1)] +
                sumVal phaseEntries (dinsert b (some k) (popPhases pflist ([], km)).2) +
                phaseEntries km
              = phaseEntries (popPhases pflist ([], km)).1 +
                (sumVal phaseEntries (dinsert b (some k) (popPhases pflist ([], km)).2) +
                  phaseEntries km) := by
                simp
                abel
            _ = phaseEntries (popPhases pflist ([], km)).1 +
                (sumVal phaseEntries b + phaseEntries (popPhases pflist ([], km)).2) := by
                rw [h3]
            _ = (phaseEntries (popPhases pflist ([], km)).1 +
                  phaseEntries (popPhases pflist ([], km)).2) + sumVal phaseEntries b := by
                abel
            _ ≤ phaseEntries km + sumVal phaseEntries b := add_le_add_right hle2 _
            _ = sumVal phaseEntries b + phaseEntries km := by abel

/-- A sequence of `collect_messages` calls, threading the buffer through, with
the list of returned mappings. -/
def drainSeq : List (Option String × Option (List String)) → MsgBuffer →
    List MsgBuffer × MsgBuffer
  | [], b => ([], b)
  | c :: cs, b =>
    (((collect_messages c.1 c.2 b).1 :: (drainSeq cs (collect_messages c.1 c.2 b).2).1),
      (drainSeq cs (collect_messages c.1 c.2 b).2).2)

end Entries

section Claims

/-- Modelled from the spec: `EBUILD_PHASES` lives in `portage.const`, outside
the file under verification; the spec treats it as a fixed, externally
supplied set of valid phase identifiers, so `collect_ebuild_messages` is
parameterized over it and this sample stands in for it in concrete witnesses. -/
def samplePhases : List String :=
  ["setup", "unpack", "prepare", "configure", "compile", "test", "install", "build", "other"]

theorem collect_nonempty (phases : List String) (path : String) (content : String → String)
    (fs : List String) (files : List String) (hne : files ≠ []) :
    collect_ebuild_messages phases path (some files) content fs =
      ((files.reverse.foldl (ebuild_file_step phases path content) ([], [])).1,
        (files.reverse.foldl (ebuild_file_step phases path content) ([], [])).2,
        files.reverse.foldl (fun a g => tryUnlink a (path_join path g)) fs) := by
  unfold collect_ebuild_messages
  obtain ⟨a, as, rfl⟩ := List.exists_cons_of_ne_nil hne
  dsimp only
  rw [if_neg (by simp)]

theorem collect_single (phases : List String) (path ph : String) (content : String → String)
    (fs : List String) (hph : ph ∈ phases) :
    (collect_ebuild_messages phases path (some [ph]) content fs).1 =
      [(ph, (parseFile (path_join path ph) (content ph)).1)] := by
  rw [collect_nonempty phases path content fs [ph] (by simp)]
  dsimp only
  rw [List.reverse_singleton, List.foldl_cons, List.foldl_nil,
    file_step_pos phases path content ([], []) ph hph]
  dsimp only
  simp [dinsert, dlookup]

/-- C1: under a valid phase name, `collect_ebuild_messages` groups the log
file's valid lines into maximal runs of consecutive same-severity lines, in
appearance order: the mapping binds the phase to exactly those runs, the runs
flatten back to the valid entries in order, no run is empty, adjacent runs
have different severities, and the spec's five-line example parses to
`[(INFO,[a,b]), (WARN,[c,d]), (INFO,[e])]`. -/
theorem claim_C1 :
    (∀ (phases : List String) (path ph : String) (content : String → String)
        (fs : List String), ph ∈ phases →
      dlookup (collect_ebuild_messages phases path (some [ph]) content fs).1 ph
        = some (maximalRuns (validEntries (content ph))))
    ∧ (∀ fn c : String,
        (parseFile fn c).1 = maximalRuns (validEntries c)
        ∧ flattenGroups ((parseFile fn c).1) = validEntries c
        ∧ (∀ g ∈ (parseFile fn c).1, g.2 ≠ [])
        ∧ List.Chain' (fun a b : String × List String => a.1 ≠ b.1) ((parseFile fn c).1))
    ∧ (parseFile "build" "INFO a\nINFO b\nWARN c\nWARN d\nINFO e").1
        = [("INFO", ["a", "b"]), ("WARN", ["c", "d"]), ("INFO", ["e"])] := by
  refine ⟨?_, ?_, ?_⟩
  · intro phases path ph content fs hph
    rw [collect_single phases path ph content fs hph, parseFile_groups]
    simp [dlookup]
  · intro fn c
    refine ⟨parseFile_groups fn c, ?_, ?_, ?_⟩
    · rw [parseFile_groups fn c, flatten_maximalRuns]
    · rw [parseFile_groups fn c]
      exact maximalRuns_groups_ne_nil _
    · rw [parseFile_groups fn c]
      exact maximalRuns_chain _
  · rfl

theorem claim_C1_witness :
    dlookup (collect_ebuild_messages samplePhases "/var/tmp/elog" (some ["build"])
        (fun _ => "INFO a\nWARN b") []).1 "build"
      = some (maximalRuns (validEntries "INFO a\nWARN b")) :=
  claim_C1.1 samplePhases "/var/tmp/elog" "build" (fun _ => "INFO a\nWARN b") [] (by decide)

/-- The buffer holding `record(INFO,"m1",phase="build",key="pkg")` followed by
`record(WARN,"m2",phase="build",key="pkg")`. -/
def c2buf : MsgBuffer :=
  _elog_base "WARN" "m2" "build" (some "pkg")
    (_elog_base "INFO" "m1" "build" (some "pkg") [])

/-- C2 counterexample: the keyed drain does not return the phase map
`{"build": [(INFO,m1),(WARN,m2)]}` directly; it returns it wrapped under the
key, `{K: {"build": ...}}`, so the result has no top-level binding for
`"build"`. -/
theorem claim_C2_counterexample :
    (collect_messages (some "pkg") none c2buf).1
        = [(some "pkg", [("build", [("INFO", "m1"), ("WARN", "m2")])])]
    ∧ dlookup (collect_messages (some "pkg") none c2buf).1 (some "build") = none :=
  ⟨rfl, rfl⟩

/-- C2 (amended): after the two records, `drain(key=K)` returns
`{K: {"build": [(INFO,"m1"), (WARN,"m2")]}}` (the popped phase map wrapped
under the key) and empties the buffer; an immediately following
`drain(key=K)` returns `{}`. -/
theorem claim_C2 :
    (collect_messages (some "pkg") none c2buf).1
        = [(some "pkg", [("build", [("INFO", "m1"), ("WARN", "m2")])])]
    ∧ (collect_messages (some "pkg") none c2buf).2 = []
    ∧ (collect_messages (some "pkg") none
        ((collect_messages (some "pkg") none c2buf).2)).1 = [] :=
  ⟨rfl, rfl, rfl⟩

/-- C3: a phase-filtered drain of a present key returns exactly the filter's
phases that exist under the key, in filter order (phases absent under the key
are silently ignored); if no phase remains under the key it is removed from
the buffer, otherwise it stays, in place, with exactly its untouched
phases. -/
theorem claim_C3 (buf : MsgBuffer) (k : String) (km : PhaseMap) (F : List String)
    (hlk : dlookup buf (some k) = some km) (hkm : (keys km).Nodup) (hF : F.Nodup) :
    (collect_messages (some k) (some F) buf).1 =
        [(some k, F.filterMap (fun p => (dlookup km p).map (fun l => (p, l))))]
    ∧ (km.filter (fun q => q.1 ∉ F) = [] →
        (collect_messages (some k) (some F) buf).2 = derase buf (some k))
    ∧ (km.filter (fun q => q.1 ∉ F) ≠ [] →
        (collect_messages (some k) (some F) buf).2 =
          dinsert buf (some k) (km.filter (fun q => q.1 ∉ F))) := by
  have hspec := popPhases_spec F [] km hF hkm (by simp)
  have hcm : collect_messages (some k) (some F) buf =
      ([(some k, (popPhases F ([], km)).1)],
        if (popPhases F ([], km)).2.isEmpty then derase buf (some k)
        else dinsert buf (some k) (popPhases F ([], km)).2) := by
    unfold collect_messages
    dsimp only
    rw [hlk]
  refine ⟨?_, ?_, ?_⟩
  · rw [hcm]
    dsimp only
    rw [hspec]
    simp
  · intro hemp
    rw [hcm]
    dsimp only
    rw [hspec]
    dsimp only
    rw [hemp]
    simp
  · intro hne
    rw [hcm]
    dsimp only
    rw [hspec]
    dsimp only
    obtain ⟨a, as, hcons⟩ := List.exists_cons_of_ne_nil hne
    rw [hcons, if_neg (by simp), ← hcons]

/-- A buffer with phases "build" and "install" under key "pkg". -/
def c3buf : MsgBuffer :=
  _elog_base "INFO" "i1" "install" (some "pkg")
    (_elog_base "WARN" "m2" "build" (some "pkg")
      (_elog_base "INFO" "m1" "build" (some "pkg") []))

theorem claim_C3_witness :
    (collect_messages (some "pkg") (some ["build", "frob"]) c3buf).1
        = [(some "pkg", [("build", [("INFO", "m1"), ("WARN", "m2")])])]
    ∧ (collect_messages (some "pkg") (some ["build", "frob"]) c3buf).2
        = [(some "pkg", [("install", [("INFO", "i1")])])] := by
  have h := claim_C3 c3buf "pkg"
      [("build", [("INFO", "m1"), ("WARN", "m2")]), ("install", [("INFO", "i1")])]
      ["build", "frob"] rfl (by decide) (by decide)
  refine ⟨?_, ?_⟩
  · rw [h.1]
    rfl
  · rw [h.2.2 (by decide)]
    rfl

/-- C4: retrieval is exactly-once: over any sequence of drain calls with no
record call in between, the multiset of all returned entries (together with
whatever still remains buffered) never exceeds the multiset the buffer held
at the start, so no buffered entry occurrence is delivered by more than one
call. -/
theorem claim_C4 :
    ∀ (calls : List (Option String × Option (List String))) (b : MsgBuffer),
    ((drainSeq calls b).1.map bufEntries).sum + bufEntries (drainSeq calls b).2 ≤
      bufEntries b := by
  intro calls
  induction calls with
  | nil => intro b; simp [drainSeq]
  | cons c cs ih =>
    intro b
    have hstep := collect_messages_le c.1 c.2 b
    have hrest := ih (collect_messages c.1 c.2 b).2
    simp only [drainSeq, List.map_cons, List.sum_cons]
    calc bufEntries (collect_messages c.1 c.2 b).1 +
          ((drainSeq cs (collect_messages c.1 c.2 b).2).1.map bufEntries).sum +
          bufEntries (drainSeq cs (collect_messages c.1 c.2 b).2).2
        = bufEntries (collect_messages c.1 c.2 b).1 +
          (((drainSeq cs (collect_messages c.1 c.2 b).2).1.map bufEntries).sum +
            bufEntries (drainSeq cs (collect_messages c.1 c.2 b).2).2) := by
          rw [add_assoc]
      _ ≤ bufEntries (collect_messages c.1 c.2 b).1 +
            bufEntries (collect_messages c.1 c.2 b).2 := add_le_add_left hrest _
      _ ≤ bufEntries b := hstep

/-- C5 counterexample: a file named outside the valid phase set is rejected
and reported, but it is NOT left on disk: the cleanup sweep deletes it, so
after the call the filesystem no longer contains it. -/
theorem claim_C5_counterexample :
    "/log/not_a_phase" ∈ ["/log/not_a_phase"]
    ∧ collect_ebuild_messages samplePhases "/log" (some ["not_a_phase"]) (fun _ => "")
        ["/log/not_a_phase"]
      = ([], [invalidDiag "/log/not_a_phase"], []) :=
  ⟨by simp, rfl⟩

/-- C5 (amended): a file whose name is not a recognized phase is rejected: a
diagnostic is emitted, the file is never parsed (its name is absent from the
returned mapping), and while parsing leaves it alone, the final cleanup sweep
deletes it from disk. -/
theorem claim_C5 (phases : List String) (path : String) (files : List String)
    (content : String → String) (fs : List String) (f : String)
    (hmem : f ∈ files) (hf : f ∉ phases) (hfs : fs.Nodup) :
    invalidDiag (path_join path f) ∈
        (collect_ebuild_messages phases path (some files) content fs).2.1
    ∧ dlookup (collect_ebuild_messages phases path (some files) content fs).1 f = none
    ∧ path_join path f ∉ (collect_ebuild_messages phases path (some files) content fs).2.2 := by
  have hne : files ≠ [] := by
    rintro rfl
    simp at hmem
  rw [collect_nonempty phases path content fs files hne]
  refine ⟨?_, ?_, ?_⟩
  · exact file_fold_invalid_diag phases path content files.reverse ([], []) f
      (List.mem_reverse.mpr hmem) hf
  · apply dlookup_eq_none_of_not_mem
    intro hk
    rcases file_fold_keys_subset phases path content files.reverse ([], []) hk with h2 | h2
    · simp [keys] at h2
    · exact hf h2
  · rw [unlink_fold_eq path files.reverse fs]
    exact not_mem_foldl_erase (files.reverse.map (path_join path)) fs hfs
      (List.mem_map_of_mem (path_join path) (List.mem_reverse.mpr hmem))

theorem claim_C5_witness :
    ("not_a_phase" ∈ ["not_a_phase", "build"] ∧ "not_a_phase" ∉ samplePhases
      ∧ ["/log/not_a_phase", "/log/build"].Nodup)
    ∧ (invalidDiag (path_join "/log" "not_a_phase") ∈
        (collect_ebuild_messages samplePhases "/log" (some ["not_a_phase", "build"])
          (fun _ => "INFO a") ["/log/not_a_phase", "/log/build"]).2.1
      ∧ dlookup (collect_ebuild_messages samplePhases "/log" (some ["not_a_phase", "build"])
          (fun _ => "INFO a") ["/log/not_a_phase", "/log/build"]).1 "not_a_phase" = none
      ∧ path_join "/log" "not_a_phase" ∉
          (collect_ebuild_messages samplePhases "/log" (some ["not_a_phase", "build"])
            (fun _ => "INFO a") ["/log/not_a_phase", "/log/build"]).2.2) :=
  ⟨⟨by decide, by decide, by decide⟩,
    claim_C5 samplePhases "/log" ["not_a_phase", "build"] (fun _ => "INFO a")
      ["/log/not_a_phase", "/log/build"] "not_a_phase" (by decide) (by decide) (by decide)⟩

/-- C6: the cleanup sweep attempts to delete every originally listed file
(valid or not): none of them remains afterwards, unlisted files survive, the
returned mapping is independent of the filesystem state (so deletion outcomes
cannot affect it), and unlinking a missing file is a swallowed error that
leaves the filesystem unchanged. -/
theorem claim_C6 (phases : List String) (path : String) (files : List String)
    (content : String → String) (fs : List String) (hfs : fs.Nodup) :
    (∀ f ∈ files, path_join path f ∉
        (collect_ebuild_messages phases path (some files) content fs).2.2)
    ∧ (∀ g ∈ fs, (∀ f ∈ files, path_join path f ≠ g) →
        g ∈ (collect_ebuild_messages phases path (some files) content fs).2.2)
    ∧ (∀ fs2 : List String,
        (collect_ebuild_messages phases path (some files) content fs).1 =
          (collect_ebuild_messages phases path (some files) content fs2).1)
    ∧ (∀ (fs0 : List String) (q : String), q ∉ fs0 →
        unlink fs0 q = Except.error "ENOENT" ∧ tryUnlink fs0 q = fs0) := by
  have hswallow : ∀ (fs0 : List String) (q : String), q ∉ fs0 →
      unlink fs0 q = Except.error "ENOENT" ∧ tryUnlink fs0 q = fs0 := by
    intro fs0 q hq
    constructor
    · unfold unlink
      rw [if_neg hq]
    · simp [tryUnlink, unlink, hq]
  rcases eq_or_ne files [] with rfl | hne
  · refine ⟨?_, ?_, ?_, hswallow⟩
    · intro f hf
      simp at hf
    · intro g hg _
      exact hg
    · intro fs2
      rfl
  · rw [collect_nonempty phases path content fs files hne]
    refine ⟨?_, ?_, ?_, hswallow⟩
    · intro f hf
      rw [unlink_fold_eq path files.reverse fs]
      exact not_mem_foldl_erase (files.reverse.map (path_join path)) fs hfs
        (List.mem_map_of_mem (path_join path) (List.mem_reverse.mpr hf))
    · intro g hg hne2
      rw [unlink_fold_eq path files.reverse fs]
      apply mem_foldl_erase_of_ne (files.reverse.map (path_join path)) fs hg
      intro p hp
      rcases List.mem_map.mp hp with ⟨f, hfmem, rfl⟩
      exact hne2 f (List.mem_reverse.mp hfmem)
    · intro fs2
      rw [collect_nonempty phases path content fs2 files hne]

theorem claim_C6_witness :
    ["/log/not_a_phase", "/log/build", "/log/keep"].Nodup
    ∧ path_join "/log" "not_a_phase" ∉
        (collect_ebuild_messages samplePhases "/log" (some ["not_a_phase", "build"])
          (fun _ => "INFO a") ["/log/not_a_phase", "/log/build", "/log/keep"]).2.2
    ∧ "/log/keep" ∈
        (collect_ebuild_messages samplePhases "/log" (some ["not_a_phase", "build"])
          (fun _ => "INFO a") ["/log/not_a_phase", "/log/build", "/log/keep"]).2.2 :=
  ⟨by decide,
    (claim_C6 samplePhases "/log" ["not_a_phase", "build"] (fun _ => "INFO a")
      ["/log/not_a_phase", "/log/build", "/log/keep"] (by decide)).1 "not_a_phase" (by decide),
    (claim_C6 samplePhases "/log" ["not_a_phase", "build"] (fun _ => "INFO a")
      ["/log/not_a_phase", "/log/build", "/log/keep"] (by decide)).2.1 "/log/keep"
      (by decide) (by decide)⟩

/-- C7: a non-empty line whose first token is not a recognized severity, or
which has no space at all, is skipped with a diagnostic and contributes to no
group, while grouping is determined purely by the valid lines, so the valid
lines before and after the gap still group correctly; concretely, `BOGUS x`
and a message-less `WARN` line are both reported and `INFO a`/`INFO b` around
them still merge into a single group. -/
theorem claim_C7 :
    (∀ (fn content l : String), l ∈ linesOf content → l ≠ "" → parseLine l = none →
      malformedDiag fn l ∈ (parseFile fn content).2)
    ∧ (∀ fn content : String, (parseFile fn content).1 = maximalRuns (validEntries content))
    ∧ parseFile "f" "INFO a\nBOGUS x\nWARN\nINFO b"
        = ([("INFO", ["a", "b"])],
            [malformedDiag "f" "BOGUS x", malformedDiag "f" "WARN"]) := by
  refine ⟨?_, ?_, ?_⟩
  · intro fn content l hmem hne2 hpl
    unfold parseFile
    exact fold_diag_of_malformed fn (linesOf content) _ l hmem hne2 hpl
  · intro fn content
    exact parseFile_groups fn content
  · rfl

theorem claim_C7_witness :
    ("BOGUS x" ∈ linesOf "INFO a\nBOGUS x\nINFO b" ∧ "BOGUS x" ≠ ""
      ∧ parseLine "BOGUS x" = none)
    ∧ malformedDiag "f" "BOGUS x" ∈ (parseFile "f" "INFO a\nBOGUS x\nINFO b").2 :=
  ⟨⟨by decide, by decide, by decide⟩,
    claim_C7.1 "f" "INFO a\nBOGUS x\nINFO b" "BOGUS x" (by decide) (by decide) (by decide)⟩

/-- C8: files are visited in the reverse of the directory-listing order: the
keys of the returned mapping are exactly the valid listed names in reverse
listing order, and the emitted diagnostics are the per-file diagnostics
concatenated in reverse listing order. -/
theorem claim_C8 (phases : List String) (path : String) (files : List String)
    (content : String → String) (fs : List String) (hnd : files.Nodup) :
    keys (collect_ebuild_messages phases path (some files) content fs).1 =
        files.reverse.filter (fun f => f ∈ phases)
    ∧ (collect_ebuild_messages phases path (some files) content fs).2.1 =
        (files.reverse.map (fileDiags phases path content)).flatten := by
  rcases eq_or_ne files [] with rfl | hne
  · exact ⟨rfl, rfl⟩
  · rw [collect_nonempty phases path content fs files hne]
    constructor
    · have h := file_fold_keys_order phases path content files.reverse ([], [])
        (List.nodup_reverse.mpr hnd) (by simp [keys])
      simpa [keys] using h
    · have h := file_fold_diags_eq phases path content files.reverse ([], [])
      simpa using h

theorem claim_C8_witness :
    ["install", "not_a_phase", "build"].Nodup
    ∧ keys (collect_ebuild_messages samplePhases "/log"
        (some ["install", "not_a_phase", "build"]) (fun _ => "INFO a") []).1
      = ["build", "install"] := by
  refine ⟨by decide, ?_⟩
  rw [(claim_C8 samplePhases "/log" ["install", "not_a_phase", "build"]
    (fun _ => "INFO a") [] (by decide)).1]
  rfl

/-- C9: starting from the empty buffer, after any sequence of record
(`_elog_base`) and drain (`collect_messages`) calls, every key present in the
buffer holds a non-empty phase map and every phase present holds a non-empty
entry list. -/
theorem claim_C9 {b : MsgBuffer} (h : Reachable b) : WFBuf b :=
  reachable_wf h

theorem claim_C9_witness :
    WFBuf (_elog_base "INFO" "m1" "build" (some "pkg") []) :=
  claim_C9 (Reachable.record "INFO" "m1" "build" (some "pkg") Reachable.empty)

/-- C10: draining a present key of a reachable buffer with a phase filter
none of whose phases exist under the key returns the key bound to an empty
mapping, which is distinct from the `{}` an absent key yields, and leaves the
buffer unchanged. -/
theorem claim_C10 (buf : MsgBuffer) (k : String) (km : PhaseMap) (F : List String)
    (hr : Reachable buf) (hlk : dlookup buf (some k) = some km)
    (hF : ∀ p ∈ F, dlookup km p = none) :
    collect_messages (some k) (some F) buf = ([(some k, [])], buf)
    ∧ (collect_messages (some k) (some F) buf).1 ≠ [] := by
  have hpop := popPhases_all_missing F [] km hF
  have hkm : km ≠ [] := (reachable_wf hr _ (dlookup_mem hlk)).1
  have hcm : collect_messages (some k) (some F) buf =
      ([(some k, (popPhases F ([], km)).1)],
        if (popPhases F ([], km)).2.isEmpty then derase buf (some k)
        else dinsert buf (some k) (popPhases F ([], km)).2) := by
    unfold collect_messages
    dsimp only
    rw [hlk]
  obtain ⟨a, as, hcons⟩ := List.exists_cons_of_ne_nil hkm
  have hres : collect_messages (some k) (some F) buf = ([(some k, [])], buf) := by
    rw [hcm, hpop]
    dsimp only
    rw [hcons, if_neg (by simp), ← hcons, dinsert_dlookup_self hlk]
  refine ⟨hres, ?_⟩
  rw [hres]
  simp

/-- The C10 witness buffer: one entry under key "pkg", phase "build". -/
def c10buf : MsgBuffer := _elog_base "INFO" "m1" "build" (some "pkg") []

theorem claim_C10_witness :
    collect_messages (some "pkg") (some ["frob", "install"]) c10buf
      = ([(some "pkg", [])], c10buf) :=
  (claim_C10 c10buf "pkg" [("build", [("INFO", "m1")])] ["frob", "install"]
    (Reachable.record "INFO" "m1" "build" (some "pkg") Reachable.empty)
    rfl (by decide)).1

end Claims

end Portage
